import Mathlib

/-!
Verification of the Gaussian-blur core (`src/lib.rs`, `src/threadpool.rs`,
`src/main.rs`) against its design specification.

Shallow embedding conventions:
* `f64` values are modelled as real numbers; the Rust `as u8` cast from `f64`
  is modelled by `f64_as_u8` (truncation toward zero, saturated to `[0, 255]`).
* `u8` arithmetic that can overflow is modelled with an explicit `% 256`.
* Pixels are triples of natural-number channels; images and weight grids are
  dimension-carrying function tables.
* The worker pool of `threadpool.rs` is modelled as a transition system
  (`PoolStep`), and the termination behaviour of `blur_async`'s blocking
  receive loop is modelled by `blur_asyncTerminates`.
-/

/-- One RGB pixel: three 8-bit channels, modelled as naturals (`image::Rgb<u8>`). -/
structure Rgb where
  r : ℕ
  g : ℕ
  b : ℕ
  deriving DecidableEq

attribute [ext] Rgb

/-- An RGB raster (`image::RgbImage`): dimensions plus a pixel table.
`pixel x y` models `get_pixel(x, y)` and is meaningful for `x < width`,
`y < height` (the Rust method panics out of range; the code under
verification only calls it in range). -/
structure RgbImage where
  width : ℕ
  height : ℕ
  pixel : ℕ → ℕ → Rgb

/-- A `grid::Grid<f64>`: row and column counts plus a cell table.
`get x y` models `Grid::get(x, y)`; it is meaningful for `x < rows`,
`y < cols` (the Rust method returns `None` out of range; the code under
verification only reads in range). -/
structure Grid where
  rows : ℕ
  cols : ℕ
  get : ℕ → ℕ → ℝ

/-- `grid::Grid::new(r, c)`: a zero-initialised grid. -/
def Grid.new (r c : ℕ) : Grid :=
  { rows := r, cols := c, get := fun _ _ => 0 }

/-- Writing one cell through `Grid::get_mut` (`*el = v`). -/
def Grid.set (g : Grid) (x y : ℕ) (v : ℝ) : Grid :=
  { rows := g.rows, cols := g.cols,
    get := fun a b => if a = x ∧ b = y then v else g.get a b }

/-- `fn gaussian(x: i32, y: i32, sigma: f64) -> f64` of `src/lib.rs`:
`exp(-(x² + y²) / (2 σ σ)) / (2 π σ σ)`. -/
noncomputable def gaussian (x y : ℤ) (sigma : ℝ) : ℝ :=
  Real.exp (-((x : ℝ) ^ 2 + (y : ℝ) ^ 2) / (2 * sigma * sigma)) /
    (2 * Real.pi * sigma * sigma)

/-- The kernel side length `radius * 2 + 1` as the Rust code computes it:
in `u8` arithmetic, which wraps modulo 256 for `radius ≥ 128`. -/
def matrixSide (radius : ℕ) : ℕ := (radius * 2 + 1) % 256

/-- `fn get_gaussian_matrix(radius: u8, sigma: f64) -> Grid<f64>` of
`src/lib.rs`: allocate a `width × width` grid (`width = radius * 2 + 1` in
`u8`) and fill cell `(x, y)` with
`gaussian(x - radius, y - radius, sigma)` by a double loop. -/
noncomputable def get_gaussian_matrix (radius : ℕ) (sigma : ℝ) : Grid :=
  (List.range (matrixSide radius)).foldl
    (fun m x =>
      (List.range (matrixSide radius)).foldl
        (fun m y =>
          m.set x y (gaussian ((x : ℤ) - (radius : ℤ)) ((y : ℤ) - (radius : ℤ)) sigma))
        m)
    (Grid.new (matrixSide radius) (matrixSide radius))

lemma Grid.get_set (g : Grid) (x y : ℕ) (v : ℝ) (a b : ℕ) :
    (g.set x y v).get a b = if a = x ∧ b = y then v else g.get a b := rfl

lemma Grid.set_rows (g : Grid) (x y : ℕ) (v : ℝ) : (g.set x y v).rows = g.rows := rfl

lemma Grid.set_cols (g : Grid) (x y : ℕ) (v : ℝ) : (g.set x y v).cols = g.cols := rfl

lemma fill_inner_rows (f : ℕ → ℕ → ℝ) (x : ℕ) :
    ∀ (l : List ℕ) (g : Grid),
      (l.foldl (fun m y => m.set x y (f x y)) g).rows = g.rows := by
  intro l
  induction l with
  | nil => intro g; rfl
  | cons y ys ih => intro g; simpa using ih (g.set x y (f x y))

lemma fill_inner_cols (f : ℕ → ℕ → ℝ) (x : ℕ) :
    ∀ (l : List ℕ) (g : Grid),
      (l.foldl (fun m y => m.set x y (f x y)) g).cols = g.cols := by
  intro l
  induction l with
  | nil => intro g; rfl
  | cons y ys ih => intro g; simpa using ih (g.set x y (f x y))

lemma fill_outer_rows (f : ℕ → ℕ → ℝ) (w : ℕ) :
    ∀ (l : List ℕ) (g : Grid),
      (l.foldl (fun m x => (List.range w).foldl (fun m y => m.set x y (f x y)) m) g).rows
        = g.rows := by
  intro l
  induction l with
  | nil => intro g; rfl
  | cons x xs ih =>
      intro g
      simpa [fill_inner_rows] using
        ih ((List.range w).foldl (fun m y => m.set x y (f x y)) g)

lemma fill_outer_cols (f : ℕ → ℕ → ℝ) (w : ℕ) :
    ∀ (l : List ℕ) (g : Grid),
      (l.foldl (fun m x => (List.range w).foldl (fun m y => m.set x y (f x y)) m) g).cols
        = g.cols := by
  intro l
  induction l with
  | nil => intro g; rfl
  | cons x xs ih =>
      intro g
      simpa [fill_inner_cols] using
        ih ((List.range w).foldl (fun m y => m.set x y (f x y)) g)

/-- The matrix built by `get_gaussian_matrix` has `(radius * 2 + 1) % 256` rows. -/
lemma get_gaussian_matrix_rows (radius : ℕ) (sigma : ℝ) :
    (get_gaussian_matrix radius sigma).rows = matrixSide radius := by
  unfold get_gaussian_matrix
  rw [fill_outer_rows]
  rfl

/-- The matrix built by `get_gaussian_matrix` has `(radius * 2 + 1) % 256` columns. -/
lemma get_gaussian_matrix_cols (radius : ℕ) (sigma : ℝ) :
    (get_gaussian_matrix radius sigma).cols = matrixSide radius := by
  unfold get_gaussian_matrix
  rw [fill_outer_cols]
  rfl

lemma fill_inner_get (f : ℕ → ℕ → ℝ) (x : ℕ) :
    ∀ (n : ℕ) (g : Grid) (a b : ℕ),
      ((List.range n).foldl (fun m y => m.set x y (f x y)) g).get a b
        = if a = x ∧ b < n then f x b else g.get a b := by
  intro n
  induction n with
  | zero => intro g a b; simp
  | succ n ih =>
      intro g a b
      rw [List.range_succ, List.foldl_append]
      simp only [List.foldl_cons, List.foldl_nil]
      rw [Grid.get_set, ih]
      by_cases hax : a = x
      · subst hax
        by_cases hbn : b = n
        · subst hbn; simp
        · by_cases hblt : b < n
          · have h1 : b < n + 1 := by omega
            simp [hbn, hblt, h1]
          · have h1 : ¬ b < n + 1 := by omega
            simp [hbn, hblt, h1]
      · simp [hax]

lemma fill_outer_get (f : ℕ → ℕ → ℝ) (w : ℕ) :
    ∀ (n : ℕ) (g : Grid) (a b : ℕ),
      ((List.range n).foldl
        (fun m x => (List.range w).foldl (fun m y => m.set x y (f x y)) m) g).get a b
        = if a < n ∧ b < w then f a b else g.get a b := by
  intro n
  induction n with
  | zero => intro g a b; simp
  | succ n ih =>
      intro g a b
      rw [List.range_succ, List.foldl_append]
      simp only [List.foldl_cons, List.foldl_nil]
      rw [fill_inner_get, ih]
      by_cases han : a = n
      · subst han
        by_cases hbw : b < w <;> simp [hbw]
      · by_cases halt : a < n
        · have : a < n + 1 := by omega
          by_cases hbw : b < w <;> simp [han, halt, hbw, this]
        · have : ¬ a < n + 1 := by omega
          simp [han, halt, this]

/-- Cell `(x, y)` of the Gaussian matrix (in range) holds
`gaussian(x - radius, y - radius, sigma)`. -/
lemma get_gaussian_matrix_get (radius : ℕ) (sigma : ℝ) (x y : ℕ)
    (hx : x < matrixSide radius) (hy : y < matrixSide radius) :
    (get_gaussian_matrix radius sigma).get x y
      = gaussian ((x : ℤ) - (radius : ℤ)) ((y : ℤ) - (radius : ℤ)) sigma := by
  unfold get_gaussian_matrix
  rw [fill_outer_get]
  simp [hx, hy]

/-- The Rust cast `v as u8` applied to an `f64` (modelled as a real):
truncate toward zero and saturate into `[0, 255]`. -/
noncomputable def f64_as_u8 (v : ℝ) : ℕ := min 255 (Int.toNat ⌊v⌋)

/-- The out-of-bounds test of `calculate_new_pixel`
(`x < 0 || y < 0 || x >= width || y >= height`). -/
def sampleOOB (img : RgbImage) (xs ys : ℤ) : Prop :=
  xs < 0 ∨ ys < 0 ∨ (img.width : ℤ) ≤ xs ∨ (img.height : ℤ) ≤ ys

instance (img : RgbImage) (xs ys : ℤ) : Decidable (sampleOOB img xs ys) := by
  unfold sampleOOB; infer_instance

/-- `let radius = matrix.rows() as i32 / 2;` of `calculate_new_pixel`. -/
def kernelRadius (m : Grid) : ℤ := ((m.rows / 2 : ℕ) : ℤ)

/-- One iteration of the inner loop body of `calculate_new_pixel`: skip the
tap when the sample coordinate is out of bounds, otherwise add
`pixel[c] * el` to each channel accumulator and `el` to the weight total.
The accumulator is the tuple `(r, g, b, total)`. -/
noncomputable def convStep (x y : ℤ) (m : Grid) (img : RgbImage)
    (acc : ℝ × ℝ × ℝ × ℝ) (i k : ℕ) : ℝ × ℝ × ℝ × ℝ :=
  if sampleOOB img (x + (i : ℤ) - kernelRadius m) (y + (k : ℤ) - kernelRadius m) then acc
  else
    (acc.1 + ((img.pixel (x + (i : ℤ) - kernelRadius m).toNat
                (y + (k : ℤ) - kernelRadius m).toNat).r : ℝ) * m.get i k,
     acc.2.1 + ((img.pixel (x + (i : ℤ) - kernelRadius m).toNat
                (y + (k : ℤ) - kernelRadius m).toNat).g : ℝ) * m.get i k,
     acc.2.2.1 + ((img.pixel (x + (i : ℤ) - kernelRadius m).toNat
                (y + (k : ℤ) - kernelRadius m).toNat).b : ℝ) * m.get i k,
     acc.2.2.2 + m.get i k)

/-- The double accumulation loop of `calculate_new_pixel`
(`for i in 0..rows { for k in 0..cols { ... } }`), starting from
`r = g = b = total = 0.0`. -/
noncomputable def convAcc (x y : ℤ) (m : Grid) (img : RgbImage) : ℝ × ℝ × ℝ × ℝ :=
  (List.range m.rows).foldl
    (fun acc i =>
      (List.range m.cols).foldl (fun acc k => convStep x y m img acc i k) acc)
    (0, 0, 0, 0)

/-- `fn calculate_new_pixel(x: i32, y: i32, matrix: &Grid<f64>, original_img: &RgbImage) -> Rgb<u8>`
of `src/lib.rs`: run the accumulation loop, divide each channel by the total
weight and cast to `u8`. -/
noncomputable def calculate_new_pixel (x y : ℤ) (m : Grid) (img : RgbImage) : Rgb :=
  let a := convAcc x y m img
  ⟨f64_as_u8 (a.1 / a.2.2.2), f64_as_u8 (a.2.1 / a.2.2.2), f64_as_u8 (a.2.2.1 / a.2.2.2)⟩

/-- The contribution of a single kernel tap `(i, k)` to the accumulator:
zero when the sample is out of bounds. -/
noncomputable def convContrib (x y : ℤ) (m : Grid) (img : RgbImage) (i k : ℕ) :
    ℝ × ℝ × ℝ × ℝ :=
  if sampleOOB img (x + (i : ℤ) - kernelRadius m) (y + (k : ℤ) - kernelRadius m) then 0
  else
    (((img.pixel (x + (i : ℤ) - kernelRadius m).toNat
        (y + (k : ℤ) - kernelRadius m).toNat).r : ℝ) * m.get i k,
     ((img.pixel (x + (i : ℤ) - kernelRadius m).toNat
        (y + (k : ℤ) - kernelRadius m).toNat).g : ℝ) * m.get i k,
     ((img.pixel (x + (i : ℤ) - kernelRadius m).toNat
        (y + (k : ℤ) - kernelRadius m).toNat).b : ℝ) * m.get i k,
     m.get i k)

lemma convStep_eq_add (x y : ℤ) (m : Grid) (img : RgbImage)
    (acc : ℝ × ℝ × ℝ × ℝ) (i k : ℕ) :
    convStep x y m img acc i k = acc + convContrib x y m img i k := by
  unfold convStep convContrib
  by_cases h : sampleOOB img (x + (i : ℤ) - kernelRadius m) (y + (k : ℤ) - kernelRadius m)
  · simp [h]
  · simp [h, Prod.ext_iff]

lemma foldl_add_eq {M : Type} [AddCommMonoid M] (f : ℕ → M) :
    ∀ (n : ℕ) (a : M),
      (List.range n).foldl (fun acc i => acc + f i) a = a + ∑ i ∈ Finset.range n, f i := by
  intro n
  induction n with
  | zero => intro a; simp
  | succ n ih =>
      intro a
      rw [List.range_succ, List.foldl_append, ih]
      simp [Finset.sum_range_succ, add_assoc]

/-- The accumulator computed by the convolution loop is the sum of the
per-tap contributions. -/
lemma convAcc_eq_sum (x y : ℤ) (m : Grid) (img : RgbImage) :
    convAcc x y m img
      = ∑ i ∈ Finset.range m.rows, ∑ k ∈ Finset.range m.cols,
          convContrib x y m img i k := by
  unfold convAcc
  have hstep : ∀ (i : ℕ),
      (fun (acc : ℝ × ℝ × ℝ × ℝ) k => convStep x y m img acc i k)
        = fun acc k => acc + convContrib x y m img i k := by
    intro i; funext acc k; exact convStep_eq_add x y m img acc i k
  have houter :
      (fun (acc : ℝ × ℝ × ℝ × ℝ) i =>
          (List.range m.cols).foldl (fun acc k => convStep x y m img acc i k) acc)
        = fun acc i => acc + ∑ k ∈ Finset.range m.cols, convContrib x y m img i k := by
    funext acc i
    rw [hstep i, foldl_add_eq]
  rw [houter, foldl_add_eq]
  exact zero_add _

lemma sum_fst {ι A B : Type} [AddCommMonoid A] [AddCommMonoid B]
    (s : Finset ι) (f : ι → A × B) : (∑ i ∈ s, f i).1 = ∑ i ∈ s, (f i).1 :=
  map_sum (AddMonoidHom.fst A B) f s

lemma sum_snd {ι A B : Type} [AddCommMonoid A] [AddCommMonoid B]
    (s : Finset ι) (f : ι → A × B) : (∑ i ∈ s, f i).2 = ∑ i ∈ s, (f i).2 :=
  map_sum (AddMonoidHom.snd A B) f s

/-- The in-bounds predicate as the specification words it:
the sample coordinate lies inside `[0, width) × [0, height)`. -/
def inBoundsSample (img : RgbImage) (xs ys : ℤ) : Prop :=
  0 ≤ xs ∧ 0 ≤ ys ∧ xs < (img.width : ℤ) ∧ ys < (img.height : ℤ)

instance (img : RgbImage) (xs ys : ℤ) : Decidable (inBoundsSample img xs ys) := by
  unfold inBoundsSample; infer_instance

lemma not_sampleOOB_iff (img : RgbImage) (xs ys : ℤ) :
    ¬ sampleOOB img xs ys ↔ inBoundsSample img xs ys := by
  unfold sampleOOB inBoundsSample
  omega

lemma convContrib_fst (x y : ℤ) (m : Grid) (img : RgbImage) (i k : ℕ) :
    (convContrib x y m img i k).1
      = if inBoundsSample img (x + (i : ℤ) - kernelRadius m) (y + (k : ℤ) - kernelRadius m)
        then m.get i k *
          ((img.pixel (x + (i : ℤ) - kernelRadius m).toNat
            (y + (k : ℤ) - kernelRadius m).toNat).r : ℝ)
        else 0 := by
  unfold convContrib
  by_cases h : sampleOOB img (x + (i : ℤ) - kernelRadius m) (y + (k : ℤ) - kernelRadius m)
  · have h2 : ¬ inBoundsSample img (x + (i : ℤ) - kernelRadius m)
        (y + (k : ℤ) - kernelRadius m) := fun hin => (not_sampleOOB_iff _ _ _).mpr hin h
    simp [h, h2]
  · have h2 : inBoundsSample img (x + (i : ℤ) - kernelRadius m)
        (y + (k : ℤ) - kernelRadius m) := (not_sampleOOB_iff _ _ _).mp h
    simp [h, h2, mul_comm]

lemma convContrib_g (x y : ℤ) (m : Grid) (img : RgbImage) (i k : ℕ) :
    (convContrib x y m img i k).2.1
      = if inBoundsSample img (x + (i : ℤ) - kernelRadius m) (y + (k : ℤ) - kernelRadius m)
        then m.get i k *
          ((img.pixel (x + (i : ℤ) - kernelRadius m).toNat
            (y + (k : ℤ) - kernelRadius m).toNat).g : ℝ)
        else 0 := by
  unfold convContrib
  by_cases h : sampleOOB img (x + (i : ℤ) - kernelRadius m) (y + (k : ℤ) - kernelRadius m)
  · have h2 : ¬ inBoundsSample img (x + (i : ℤ) - kernelRadius m)
        (y + (k : ℤ) - kernelRadius m) := fun hin => (not_sampleOOB_iff _ _ _).mpr hin h
    simp [h, h2]
  · have h2 : inBoundsSample img (x + (i : ℤ) - kernelRadius m)
        (y + (k : ℤ) - kernelRadius m) := (not_sampleOOB_iff _ _ _).mp h
    simp [h, h2, mul_comm]

lemma convContrib_b (x y : ℤ) (m : Grid) (img : RgbImage) (i k : ℕ) :
    (convContrib x y m img i k).2.2.1
      = if inBoundsSample img (x + (i : ℤ) - kernelRadius m) (y + (k : ℤ) - kernelRadius m)
        then m.get i k *
          ((img.pixel (x + (i : ℤ) - kernelRadius m).toNat
            (y + (k : ℤ) - kernelRadius m).toNat).b : ℝ)
        else 0 := by
  unfold convContrib
  by_cases h : sampleOOB img (x + (i : ℤ) - kernelRadius m) (y + (k : ℤ) - kernelRadius m)
  · have h2 : ¬ inBoundsSample img (x + (i : ℤ) - kernelRadius m)
        (y + (k : ℤ) - kernelRadius m) := fun hin => (not_sampleOOB_iff _ _ _).mpr hin h
    simp [h, h2]
  · have h2 : inBoundsSample img (x + (i : ℤ) - kernelRadius m)
        (y + (k : ℤ) - kernelRadius m) := (not_sampleOOB_iff _ _ _).mp h
    simp [h, h2, mul_comm]

lemma convContrib_w (x y : ℤ) (m : Grid) (img : RgbImage) (i k : ℕ) :
    (convContrib x y m img i k).2.2.2
      = if inBoundsSample img (x + (i : ℤ) - kernelRadius m) (y + (k : ℤ) - kernelRadius m)
        then m.get i k
        else 0 := by
  unfold convContrib
  by_cases h : sampleOOB img (x + (i : ℤ) - kernelRadius m) (y + (k : ℤ) - kernelRadius m)
  · have h2 : ¬ inBoundsSample img (x + (i : ℤ) - kernelRadius m)
        (y + (k : ℤ) - kernelRadius m) := fun hin => (not_sampleOOB_iff _ _ _).mpr hin h
    simp [h, h2]
  · have h2 : inBoundsSample img (x + (i : ℤ) - kernelRadius m)
        (y + (k : ℤ) - kernelRadius m) := (not_sampleOOB_iff _ _ _).mp h
    simp [h, h2]

/-- The pixel convolver as the specification describes it (§4.2): for every
kernel offset, skip out-of-bounds samples entirely, otherwise accumulate
`weight × channel` per channel and `weight` into the total; each output
channel is `channel_sum / total_weight`, truncated to the 8-bit range.
Written from the spec's words, for comparison with `calculate_new_pixel`. -/
noncomputable def convolve_spec (x y : ℤ) (kernel : Grid) (img : RgbImage) : Rgb :=
  let total : ℝ := ∑ i ∈ Finset.range kernel.rows, ∑ k ∈ Finset.range kernel.cols,
    if inBoundsSample img (x + (i : ℤ) - kernelRadius kernel)
        (y + (k : ℤ) - kernelRadius kernel)
    then kernel.get i k else 0
  let rsum : ℝ := ∑ i ∈ Finset.range kernel.rows, ∑ k ∈ Finset.range kernel.cols,
    if inBoundsSample img (x + (i : ℤ) - kernelRadius kernel)
        (y + (k : ℤ) - kernelRadius kernel)
    then kernel.get i k *
      ((img.pixel (x + (i : ℤ) - kernelRadius kernel).toNat
        (y + (k : ℤ) - kernelRadius kernel).toNat).r : ℝ)
    else 0
  let gsum : ℝ := ∑ i ∈ Finset.range kernel.rows, ∑ k ∈ Finset.range kernel.cols,
    if inBoundsSample img (x + (i : ℤ) - kernelRadius kernel)
        (y + (k : ℤ) - kernelRadius kernel)
    then kernel.get i k *
      ((img.pixel (x + (i : ℤ) - kernelRadius kernel).toNat
        (y + (k : ℤ) - kernelRadius kernel).toNat).g : ℝ)
    else 0
  let bsum : ℝ := ∑ i ∈ Finset.range kernel.rows, ∑ k ∈ Finset.range kernel.cols,
    if inBoundsSample img (x + (i : ℤ) - kernelRadius kernel)
        (y + (k : ℤ) - kernelRadius kernel)
    then kernel.get i k *
      ((img.pixel (x + (i : ℤ) - kernelRadius kernel).toNat
        (y + (k : ℤ) - kernelRadius kernel).toNat).b : ℝ)
    else 0
  ⟨f64_as_u8 (rsum / total), f64_as_u8 (gsum / total), f64_as_u8 (bsum / total)⟩

/-- Claim C2: the pixel convolver visits every kernel offset, skips
out-of-bounds samples entirely (they contribute to neither the channel sums
nor the weight total), accumulates `weight × channel` and the weight for
in-bounds samples, and returns each channel as `channel_sum / total_weight`
truncated to the 8-bit range — i.e. `calculate_new_pixel` coincides with the
convolver written from the specification's words. -/
theorem c2_convolver_matches_spec (x y : ℤ) (m : Grid) (img : RgbImage) :
    calculate_new_pixel x y m img = convolve_spec x y m img := by
  simp only [calculate_new_pixel, convolve_spec]
  rw [convAcc_eq_sum]
  simp only [sum_fst, sum_snd, convContrib_fst, convContrib_g, convContrib_b, convContrib_w]

/-- Claim C3 counterexample: at `radius = 128` the `u8` computation
`radius * 2 + 1` wraps modulo 256, so the kernel grid is 1×1, not
`(2·128+1)×(2·128+1) = 257×257` as the claim states for the full `u8` range. -/
theorem c3_counterexample :
    (get_gaussian_matrix 128 1).rows = 1 ∧ (1 : ℕ) ≠ 2 * 128 + 1 := by
  refine ⟨?_, by decide⟩
  rw [get_gaussian_matrix_rows]
  decide

/-- Claim C3 (amended): for every `radius ≤ 127` and every sigma, the kernel
generator returns a square grid of side `2·radius+1` whose cell at signed
offset `(dx, dy)` (stored at index `(dx+radius, dy+radius)`) equals
`exp(-(dx²+dy²)/(2σ²)) / (2πσ²)`; for `radius ≥ 128` the `u8` side
computation wraps modulo 256. -/
theorem c3_kernel_amended (radius : ℕ) (sigma : ℝ) (hr : radius ≤ 127) :
    (get_gaussian_matrix radius sigma).rows = 2 * radius + 1 ∧
    (get_gaussian_matrix radius sigma).cols = 2 * radius + 1 ∧
    ∀ dx dy : ℤ, -(radius : ℤ) ≤ dx → dx ≤ radius → -(radius : ℤ) ≤ dy → dy ≤ radius →
      (get_gaussian_matrix radius sigma).get (dx + radius).toNat (dy + radius).toNat
        = gaussian dx dy sigma := by
  have hside : matrixSide radius = 2 * radius + 1 := by
    unfold matrixSide
    omega
  refine ⟨by rw [get_gaussian_matrix_rows, hside],
          by rw [get_gaussian_matrix_cols, hside], ?_⟩
  intro dx dy h1 h2 h3 h4
  have hx : (dx + radius).toNat < matrixSide radius := by rw [hside]; omega
  have hy : (dy + radius).toNat < matrixSide radius := by rw [hside]; omega
  rw [get_gaussian_matrix_get radius sigma _ _ hx hy]
  congr 1 <;> omega

/-- Witness for C3 (amended) at `radius = 0`, `sigma = 1`, offset `(0, 0)`. -/
theorem c3_kernel_amended_witness :
    (0 : ℕ) ≤ 127 ∧ (get_gaussian_matrix 0 1).get 0 0 = gaussian 0 0 1 := by
  refine ⟨by decide, ?_⟩
  have h := (c3_kernel_amended 0 1 (by decide)).2.2 0 0
    (by decide) (by decide) (by decide) (by decide)
  simpa using h

/-- `fn blur_sync(radius, sigma, original_img)` of `src/lib.rs`: build the
Gaussian matrix once, allocate an output buffer of the source's dimensions,
and write `calculate_new_pixel(x as i32, y as i32, &m, &original_img)` at
every coordinate (`enumerate_pixels_mut` visits each coordinate exactly
once). -/
noncomputable def blur_sync (radius : ℕ) (sigma : ℝ) (img : RgbImage) : RgbImage :=
  { width := img.width, height := img.height,
    pixel := fun x y =>
      calculate_new_pixel (x : ℤ) (y : ℤ) (get_gaussian_matrix radius sigma) img }

/-- `ImageBuffer::new(width, height)`: a zeroed raster. -/
def ImageBuffer.new (w h : ℕ) : RgbImage :=
  { width := w, height := h, pixel := fun _ _ => ⟨0, 0, 0⟩ }

/-- The job coordinates submitted by `blur_async`'s `enumerate_pixels` loop:
one job per pixel, rows outermost. -/
def jobList (w h : ℕ) : List (ℕ × ℕ) :=
  (List.range h).flatMap (fun y => (List.range w).map (fun x => (x, y)))

lemma mem_jobList (w h : ℕ) (x y : ℕ) :
    (x, y) ∈ jobList w h ↔ x < w ∧ y < h := by
  unfold jobList
  simp only [List.mem_flatMap, List.mem_map, List.mem_range, Prod.mk.injEq]
  constructor
  · rintro ⟨b, hb, a, ha, hax, hby⟩
    subst hax; subst hby
    exact ⟨ha, hb⟩
  · rintro ⟨hx, hy⟩
    exact ⟨y, hy, x, hx, rfl, rfl⟩

/-- The result a single pool job sends on the channel:
`(x, y, calculate_new_pixel(x, y, &matrix, &img))`. -/
noncomputable def jobResult (radius : ℕ) (sigma : ℝ) (img : RgbImage)
    (c : ℕ × ℕ) : ℕ × ℕ × Rgb :=
  (c.1, c.2,
    calculate_new_pixel (c.1 : ℤ) (c.2 : ℤ) (get_gaussian_matrix radius sigma) img)

/-- `*img_buf.get_pixel_mut(x, y) = pix`: overwrite one coordinate. -/
def putPixel (buf : RgbImage) (px py : ℕ) (p : Rgb) : RgbImage :=
  { width := buf.width, height := buf.height,
    pixel := fun a b => if a = px ∧ b = py then p else buf.pixel a b }

/-- The orchestrator's receive loop writing each received result into the
output buffer, in arrival order. -/
def collectResults (buf : RgbImage) (rs : List (ℕ × ℕ × Rgb)) : RgbImage :=
  rs.foldl (fun b r => putPixel b r.1 r.2.1 r.2.2) buf

lemma collectResults_width (rs : List (ℕ × ℕ × Rgb)) :
    ∀ buf : RgbImage, (collectResults buf rs).width = buf.width := by
  induction rs with
  | nil => intro buf; rfl
  | cons r rest ih => intro buf; simpa [collectResults] using ih (putPixel buf r.1 r.2.1 r.2.2)

lemma collectResults_height (rs : List (ℕ × ℕ × Rgb)) :
    ∀ buf : RgbImage, (collectResults buf rs).height = buf.height := by
  induction rs with
  | nil => intro buf; rfl
  | cons r rest ih => intro buf; simpa [collectResults] using ih (putPixel buf r.1 r.2.1 r.2.2)

lemma collectResults_pixel_notmem (rs : List (ℕ × ℕ × Rgb)) :
    ∀ (buf : RgbImage) (x y : ℕ), (∀ r ∈ rs, ¬ (x = r.1 ∧ y = r.2.1)) →
      (collectResults buf rs).pixel x y = buf.pixel x y := by
  induction rs with
  | nil => intro buf x y _; rfl
  | cons r rest ih =>
      intro buf x y h
      have hr : ¬ (x = r.1 ∧ y = r.2.1) := h r (by simp)
      have hrest : ∀ s ∈ rest, ¬ (x = s.1 ∧ y = s.2.1) := fun s hs => h s (by simp [hs])
      calc (collectResults (putPixel buf r.1 r.2.1 r.2.2) rest).pixel x y
        = (putPixel buf r.1 r.2.1 r.2.2).pixel x y := ih _ x y hrest
      _ = buf.pixel x y := by simp [putPixel, hr]

/-- If every result carrying coordinate `(x, y)` carries value `v` and at
least one such result is received, the final buffer holds `v` at `(x, y)`. -/
lemma collectResults_pixel_mem (rs : List (ℕ × ℕ × Rgb)) :
    ∀ (buf : RgbImage) (x y : ℕ) (v : Rgb),
      (∃ r ∈ rs, x = r.1 ∧ y = r.2.1) →
      (∀ r ∈ rs, x = r.1 ∧ y = r.2.1 → r.2.2 = v) →
      (collectResults buf rs).pixel x y = v := by
  induction rs with
  | nil => intro buf x y v hmem _; simp at hmem
  | cons r rest ih =>
      intro buf x y v hmem hval
      by_cases hrest : ∃ s ∈ rest, x = s.1 ∧ y = s.2.1
      · exact ih _ x y v hrest (fun s hs h => hval s (by simp [hs]) h)
      · have hr : x = r.1 ∧ y = r.2.1 := by
          rcases hmem with ⟨s, hs, hxy⟩
          rcases List.mem_cons.mp hs with h1 | h1
          · exact h1 ▸ hxy
          · exact absurd ⟨s, h1, hxy⟩ hrest
        have hnot : ∀ s ∈ rest, ¬ (x = s.1 ∧ y = s.2.1) := by
          intro s hs h
          exact hrest ⟨s, hs, h⟩
        calc (collectResults (putPixel buf r.1 r.2.1 r.2.2) rest).pixel x y
          = (putPixel buf r.1 r.2.1 r.2.2).pixel x y :=
            collectResults_pixel_notmem rest _ x y hnot
        _ = r.2.2 := by simp [putPixel, hr]
        _ = v := hval r (by simp) hr

/-- Number of jobs the pool's workers actually execute, out of `jobs`
submitted: with zero workers nobody ever receives from the job intake and
nothing runs; with at least one worker every queued job is eventually
executed (`Worker::new`'s loop runs jobs until the intake closes). -/
def poolExecuted (n_workers jobs : ℕ) : ℕ := if n_workers = 0 then 0 else jobs

/-- Termination model for `blur_async`'s result-collection loop
(`while let Ok(res) = rx.recv()` breaking at `counter == width * height`):
the orchestrator keeps its own clone of the result sender alive, so
`rx.recv()` never reports disconnection and blocks forever once results run
out; the loop therefore returns if and only if it can receive
`width * height ≥ 1` results, which requires that many job executions. -/
def blur_asyncTerminates (n_workers w h : ℕ) : Prop :=
  1 ≤ w * h ∧ w * h ≤ poolExecuted n_workers (w * h)

instance (n w h : ℕ) : Decidable (blur_asyncTerminates n w h) := by
  unfold blur_asyncTerminates; infer_instance

/-- `fn blur_async(radius, sigma, n_threads, original_img)` of `src/lib.rs`,
modelled with the nondeterministic arrival order of results made explicit:
`arrival` is the order in which the receive loop obtains job results (any
interleaving of the workers yields some permutation of the job list).
`none` models the call never returning (receive loop blocked forever). -/
noncomputable def blur_async (radius : ℕ) (sigma : ℝ) (n_threads : ℕ)
    (img : RgbImage) (arrival : List (ℕ × ℕ)) : Option RgbImage :=
  if blur_asyncTerminates n_threads img.width img.height then
    some (collectResults (ImageBuffer.new img.width img.height)
      (arrival.map (jobResult radius sigma img)))
  else none

attribute [ext] Grid

/-- Claim C1 (amended): for `n_workers ≥ 1` and a source with at least one
pixel, the parallel path returns, and whatever order the per-pixel results
arrive in (any permutation of the job list), its raster agrees with the
sequential path at every in-range coordinate; with `n_workers = 0` or an
empty source `blur_async` never returns (see the counterexample). -/
theorem c1_sync_async_equal (radius : ℕ) (sigma : ℝ) (n_threads : ℕ)
    (img : RgbImage) (arrival : List (ℕ × ℕ)) (hn : 1 ≤ n_threads)
    (hp : 1 ≤ img.width * img.height)
    (hperm : arrival.Perm (jobList img.width img.height)) :
    ∃ out, blur_async radius sigma n_threads img arrival = some out ∧
      ∀ x y, x < img.width → y < img.height →
        out.pixel x y = (blur_sync radius sigma img).pixel x y := by
  have hterm : blur_asyncTerminates n_threads img.width img.height := by
    refine ⟨hp, ?_⟩
    have hne : n_threads ≠ 0 := by omega
    simp [poolExecuted, hne]
  have hout : blur_async radius sigma n_threads img arrival
      = some (collectResults (ImageBuffer.new img.width img.height)
          (arrival.map (jobResult radius sigma img))) := by
    unfold blur_async
    rw [if_pos hterm]
  refine ⟨_, hout, ?_⟩
  intro x y hx hy
  have hmemJob : (x, y) ∈ arrival :=
    hperm.mem_iff.mpr ((mem_jobList _ _ x y).mpr ⟨hx, hy⟩)
  have hmem : ∃ r ∈ arrival.map (jobResult radius sigma img), x = r.1 ∧ y = r.2.1 :=
    ⟨jobResult radius sigma img (x, y), List.mem_map_of_mem _ hmemJob, rfl, rfl⟩
  have hval : ∀ r ∈ arrival.map (jobResult radius sigma img), x = r.1 ∧ y = r.2.1 →
      r.2.2 = calculate_new_pixel (x : ℤ) (y : ℤ) (get_gaussian_matrix radius sigma) img := by
    intro r hr hxy
    rcases List.mem_map.mp hr with ⟨c, _, rfl⟩
    obtain ⟨cx, cy⟩ := c
    obtain ⟨h1, h2⟩ := hxy
    simp only [jobResult] at h1 h2 ⊢
    subst h1
    subst h2
    rfl
  rw [collectResults_pixel_mem _ _ x y _ hmem hval]
  rfl

/-- Claim C1 counterexample: with `n_workers = 0` the parallel path never
returns (the queued jobs have no worker to run them, and the receive loop
blocks forever), while the sequential path produces a raster, so the claimed
equality for *every* worker count fails at `n_workers = 0`. -/
theorem c1_counterexample :
    blur_async 0 1 0 (ImageBuffer.new 1 1) [(0, 0)] = none ∧
    (blur_sync 0 1 (ImageBuffer.new 1 1)).width = 1 := by
  constructor
  · unfold blur_async
    rw [if_neg (by decide)]
  · rfl

/-- Witness for C1 (amended) on a 1×1 image with one worker. -/
theorem c1_sync_async_equal_witness :
    ∃ out, blur_async 0 1 1 (ImageBuffer.new 1 1) (jobList 1 1) = some out ∧
      ∀ x y, x < (ImageBuffer.new 1 1).width → y < (ImageBuffer.new 1 1).height →
        out.pixel x y = (blur_sync 0 1 (ImageBuffer.new 1 1)).pixel x y :=
  c1_sync_async_equal 0 1 1 (ImageBuffer.new 1 1) (jobList 1 1)
    (by decide) (by decide) (List.Perm.refl _)

/-- Claim C7: both paths preserve the source dimensions for valid inputs. -/
theorem c7_dimension_preservation (radius : ℕ) (sigma : ℝ) (n_threads : ℕ)
    (img : RgbImage) (arrival : List (ℕ × ℕ)) (hw : 0 < img.width)
    (hh : 0 < img.height) (_hs : 0 < sigma) (hn : 1 ≤ n_threads) :
    (blur_sync radius sigma img).width = img.width ∧
    (blur_sync radius sigma img).height = img.height ∧
    ∃ out, blur_async radius sigma n_threads img arrival = some out ∧
      out.width = img.width ∧ out.height = img.height := by
  refine ⟨rfl, rfl, ?_⟩
  have hterm : blur_asyncTerminates n_threads img.width img.height := by
    refine ⟨Nat.mul_pos hw hh, ?_⟩
    have hne : n_threads ≠ 0 := by omega
    simp [poolExecuted, hne]
  refine ⟨_, by unfold blur_async; rw [if_pos hterm], ?_, ?_⟩
  · rw [collectResults_width]; rfl
  · rw [collectResults_height]; rfl

/-- Witness for C7 on a 1×1 image, `sigma = 1`, one worker. -/
theorem c7_dimension_preservation_witness :
    (blur_sync 0 1 (ImageBuffer.new 1 1)).width = (ImageBuffer.new 1 1).width ∧
    (blur_sync 0 1 (ImageBuffer.new 1 1)).height = (ImageBuffer.new 1 1).height ∧
    ∃ out, blur_async 0 1 1 (ImageBuffer.new 1 1) [] = some out ∧
      out.width = (ImageBuffer.new 1 1).width ∧
      out.height = (ImageBuffer.new 1 1).height :=
  c7_dimension_preservation 0 1 1 (ImageBuffer.new 1 1) []
    (by decide) (by decide) one_pos (by decide)

/-- Claim C9: `blur_async` never returns when the source has zero pixels
(no job is submitted but the orchestrator's own sender keeps the result
channel open, so `recv` blocks forever) or when `n_workers = 0` (jobs are
queued but nobody executes them). -/
theorem c9_async_no_return (radius : ℕ) (sigma : ℝ) (n_threads : ℕ)
    (img : RgbImage) (arrival : List (ℕ × ℕ))
    (h : img.width * img.height = 0 ∨ n_threads = 0) :
    ¬ blur_asyncTerminates n_threads img.width img.height ∧
    blur_async radius sigma n_threads img arrival = none := by
  have hnt : ¬ blur_asyncTerminates n_threads img.width img.height := by
    rintro ⟨h1, h2⟩
    rcases h with h | h
    · omega
    · subst h
      have hz : poolExecuted 0 (img.width * img.height) = 0 := rfl
      rw [hz] at h2
      omega
  exact ⟨hnt, by unfold blur_async; rw [if_neg hnt]⟩

/-- Witness for C9 at `n_workers = 0` on a 1×1 image. -/
theorem c9_async_no_return_witness :
    ¬ blur_asyncTerminates 0 (ImageBuffer.new 1 1).width (ImageBuffer.new 1 1).height ∧
    blur_async 0 1 0 (ImageBuffer.new 1 1) [] = none :=
  c9_async_no_return 0 1 0 (ImageBuffer.new 1 1) [] (Or.inr rfl)

lemma gaussian_ne_zero (x y : ℤ) (sigma : ℝ) (hs : sigma ≠ 0) :
    gaussian x y sigma ≠ 0 := by
  unfold gaussian
  exact div_ne_zero (Real.exp_ne_zero _)
    (mul_ne_zero (mul_ne_zero (mul_ne_zero two_ne_zero Real.pi_ne_zero) hs) hs)

/-- `gaussian` only uses `sigma * sigma`, so negating sigma changes nothing. -/
lemma gaussian_neg (x y : ℤ) (sigma : ℝ) :
    gaussian x y (-sigma) = gaussian x y sigma := by
  have h : 2 * -sigma * -sigma = 2 * sigma * sigma := by ring
  have h2 : 2 * Real.pi * -sigma * -sigma = 2 * Real.pi * sigma * sigma := by ring
  unfold gaussian
  rw [h, h2]

lemma get_gaussian_matrix_neg (radius : ℕ) (sigma : ℝ) :
    get_gaussian_matrix radius (-sigma) = get_gaussian_matrix radius sigma := by
  apply Grid.ext
  · rw [get_gaussian_matrix_rows, get_gaussian_matrix_rows]
  · rw [get_gaussian_matrix_cols, get_gaussian_matrix_cols]
  · funext a b
    unfold get_gaussian_matrix
    rw [fill_outer_get, fill_outer_get]
    by_cases h : a < matrixSide radius ∧ b < matrixSide radius
    · simp [h, gaussian_neg]
    · simp [h]

lemma f64_as_u8_natCast (n : ℕ) (h : n ≤ 255) : f64_as_u8 (n : ℝ) = n := by
  unfold f64_as_u8
  rw [Int.floor_natCast, Int.toNat_natCast]
  omega

/-- With `radius = 0` the kernel is the single tap `gaussian 0 0 sigma`;
for an in-range coordinate the convolver's weighted average degenerates to
the source pixel (for any `sigma ≠ 0`, as only `sigma²` is used). -/
lemma calculate_radius0 (sigma : ℝ) (hs : sigma ≠ 0) (img : RgbImage) (x y : ℕ)
    (hx : x < img.width) (hy : y < img.height)
    (h255r : (img.pixel x y).r ≤ 255) (h255g : (img.pixel x y).g ≤ 255)
    (h255b : (img.pixel x y).b ≤ 255) :
    calculate_new_pixel (x : ℤ) (y : ℤ) (get_gaussian_matrix 0 sigma) img
      = img.pixel x y := by
  have hrows : (get_gaussian_matrix 0 sigma).rows = 1 := by
    rw [get_gaussian_matrix_rows]; rfl
  have hcols : (get_gaussian_matrix 0 sigma).cols = 1 := by
    rw [get_gaussian_matrix_cols]; rfl
  have hrad : kernelRadius (get_gaussian_matrix 0 sigma) = 0 := by
    rw [kernelRadius, hrows]
    rfl
  have hget : (get_gaussian_matrix 0 sigma).get 0 0 = gaussian 0 0 sigma := by
    have h := get_gaussian_matrix_get 0 sigma 0 0 (by decide) (by decide)
    simpa using h
  have hnoob : ¬ sampleOOB img (x : ℤ) (y : ℤ) := by
    unfold sampleOOB
    omega
  have hacc : convAcc (x : ℤ) (y : ℤ) (get_gaussian_matrix 0 sigma) img
      = (((img.pixel x y).r : ℝ) * gaussian 0 0 sigma,
         ((img.pixel x y).g : ℝ) * gaussian 0 0 sigma,
         ((img.pixel x y).b : ℝ) * gaussian 0 0 sigma,
         gaussian 0 0 sigma) := by
    rw [convAcc_eq_sum, hrows, hcols, Finset.sum_range_one, Finset.sum_range_one]
    unfold convContrib
    rw [hrad]
    simp only [Nat.cast_zero, add_zero, sub_zero]
    rw [if_neg hnoob]
    simp [hget, Prod.ext_iff]
  have hw : gaussian 0 0 sigma ≠ 0 := gaussian_ne_zero 0 0 sigma hs
  show calculate_new_pixel (x : ℤ) (y : ℤ) (get_gaussian_matrix 0 sigma) img
      = img.pixel x y
  simp only [calculate_new_pixel, hacc]
  ext
  · simpa [mul_div_cancel_right₀ _ hw] using f64_as_u8_natCast _ h255r
  · simpa [mul_div_cancel_right₀ _ hw] using f64_as_u8_natCast _ h255g
  · simpa [mul_div_cancel_right₀ _ hw] using f64_as_u8_natCast _ h255b

/-- A concrete 1×1 test image with pixel `(7, 8, 9)`. -/
def testImg : RgbImage :=
  { width := 1, height := 1, pixel := fun _ _ => ⟨7, 8, 9⟩ }

/-- Claim C8: with `radius = 0` (a 1×1 kernel) and any `sigma > 0`, every
output pixel of the blur equals the corresponding source pixel exactly: the
single tap's weight is normalised by itself and the truncation reproduces
the 8-bit value. (Channels of a real `Rgb<u8>` image are ≤ 255, which the
`hwf` hypothesis records for the modelled pixel table; real arithmetic
models `f64`.) -/
theorem c8_zero_radius_identity (sigma : ℝ) (hs : 0 < sigma) (img : RgbImage)
    (hwf : ∀ a b, a < img.width → b < img.height →
      (img.pixel a b).r ≤ 255 ∧ (img.pixel a b).g ≤ 255 ∧ (img.pixel a b).b ≤ 255)
    (x y : ℕ) (hx : x < img.width) (hy : y < img.height) :
    (blur_sync 0 sigma img).pixel x y = img.pixel x y := by
  have h := hwf x y hx hy
  exact calculate_radius0 sigma (ne_of_gt hs) img x y hx hy h.1 h.2.1 h.2.2

/-- Witness for C8 on the 1×1 image with pixel `(7, 8, 9)` and `sigma = 1`. -/
theorem c8_zero_radius_identity_witness :
    (blur_sync 0 1 testImg).pixel 0 0 = testImg.pixel 0 0 :=
  c8_zero_radius_identity 1 one_pos testImg
    (fun a b _ _ => ⟨by norm_num [testImg], by norm_num [testImg], by norm_num [testImg]⟩)
    0 0 (by decide) (by decide)

/-- Claim C5 counterexample: calling `blur_sync` with the invalid
`sigma = -1` does not surface any error — the call completes the blur and
returns a raster (here reproducing the source pixel, because only `sigma²`
enters the kernel), contradicting "surface the parameter error
synchronously to the caller before any work is scheduled". -/
theorem c5_counterexample :
    (blur_sync 0 (-1) testImg).pixel 0 0 = testImg.pixel 0 0 :=
  calculate_radius0 (-1) (by norm_num) testImg 0 0 (by decide) (by decide)
    (by decide) (by decide) (by decide)

/-- Claim C5 (amended): neither entry point validates its parameters.
A non-positive sigma is neither surfaced nor clamped: the call proceeds,
and since only `sigma²` enters the kernel, `-sigma` produces exactly the
raster `sigma` produces; an invalid worker count is not surfaced either:
with `n_workers = 0` the parallel path simply never returns. -/
theorem c5_no_validation :
    (∀ (radius : ℕ) (sigma : ℝ) (img : RgbImage),
      blur_sync radius (-sigma) img = blur_sync radius sigma img) ∧
    (∀ (radius : ℕ) (sigma : ℝ) (img : RgbImage) (arrival : List (ℕ × ℕ)),
      1 ≤ img.width * img.height →
      blur_async radius sigma 0 img arrival = none) := by
  constructor
  · intro radius sigma img
    unfold blur_sync
    rw [get_gaussian_matrix_neg]
  · intro radius sigma img arrival hp
    unfold blur_async
    rw [if_neg]
    rintro ⟨h1, h2⟩
    have hz : poolExecuted 0 (img.width * img.height) = 0 := rfl
    rw [hz] at h2
    omega

/-- Witness for C5 (amended): `sigma = -1` behaves exactly like `sigma = 1`,
and a zero-worker call never returns. -/
theorem c5_no_validation_witness :
    blur_sync 0 (-1) testImg = blur_sync 0 1 testImg ∧
    blur_async 0 1 0 testImg [] = none :=
  ⟨c5_no_validation.1 0 1 testImg, c5_no_validation.2 0 1 testImg [] (by decide)⟩

/-- The progress-reporting part of `blur_async`'s receive loop
(`src/lib.rs` lines 260-280), one recursion step per received result.
State: `counter` is the count after the increment in the current iteration,
`last` the last printed percentage (initially 0). The loop breaks at
`counter == total` *before* the progress check; otherwise it prints
`percent = counter * 100 / total` exactly when `percent % 10 == 0` and
`percent != last`. `fuel` bounds the recursion (`total` at the top level,
enough for the `counter` values 1..total). Returns the list of printed
percentages in order. -/
def progressAux (total : ℕ) : ℕ → ℕ → ℕ → List ℕ
  | 0, _, _ => []
  | fuel + 1, counter, last =>
    if counter = total then []
    else
      if (counter * 100 / total) % 10 = 0 ∧ counter * 100 / total ≠ last then
        counter * 100 / total :: progressAux total fuel (counter + 1) (counter * 100 / total)
      else
        progressAux total fuel (counter + 1) last

/-- The sequence of progress percentages printed by `blur_async`'s receive
loop on an image with `total = width * height` pixels (in a terminating run). -/
def progressEvents (total : ℕ) : List ℕ := progressAux total total 1 0

lemma percent_mono (total : ℕ) {c d : ℕ} (h : c ≤ d) :
    c * 100 / total ≤ d * 100 / total :=
  Nat.div_le_div_right (Nat.mul_le_mul_right _ h)

lemma progressAux_chain (total : ℕ) :
    ∀ (fuel c last : ℕ), last ≤ c * 100 / total →
      List.Chain (· < ·) last (progressAux total fuel c last) := by
  intro fuel
  induction fuel with
  | zero => intro c last _; exact List.Chain.nil
  | succ fuel ih =>
      intro c last h
      rw [progressAux]
      by_cases hct : c = total
      · rw [if_pos hct]; exact List.Chain.nil
      · rw [if_neg hct]
        by_cases hemit : (c * 100 / total) % 10 = 0 ∧ c * 100 / total ≠ last
        · rw [if_pos hemit]
          exact List.Chain.cons (lt_of_le_of_ne h (Ne.symm hemit.2))
            (ih (c + 1) (c * 100 / total) (percent_mono total (Nat.le_succ c)))
        · rw [if_neg hemit]
          exact ih (c + 1) last (le_trans h (percent_mono total (Nat.le_succ c)))

lemma progressAux_mem (total : ℕ) :
    ∀ (fuel c last m : ℕ), c ≤ total → m ∈ progressAux total fuel c last →
      m % 10 = 0 ∧ ∃ j, c ≤ j ∧ j < total ∧ j * 100 / total = m := by
  intro fuel
  induction fuel with
  | zero => intro c last m _ hm; simp [progressAux] at hm
  | succ fuel ih =>
      intro c last m hc hm
      rw [progressAux] at hm
      by_cases hct : c = total
      · rw [if_pos hct] at hm; simp at hm
      · rw [if_neg hct] at hm
        have hclt : c < total := lt_of_le_of_ne hc hct
        by_cases hemit : (c * 100 / total) % 10 = 0 ∧ c * 100 / total ≠ last
        · rw [if_pos hemit] at hm
          rcases List.mem_cons.mp hm with h1 | h1
          · subst h1
            exact ⟨hemit.1, c, le_refl c, hclt, rfl⟩
          · obtain ⟨hmod, j, hj1, hj2, hj3⟩ := ih (c + 1) _ m (by omega) h1
            exact ⟨hmod, j, by omega, hj2, hj3⟩
        · rw [if_neg hemit] at hm
          obtain ⟨hmod, j, hj1, hj2, hj3⟩ := ih (c + 1) last m (by omega) hm
          exact ⟨hmod, j, by omega, hj2, hj3⟩

lemma progressAux_complete (total : ℕ) :
    ∀ (fuel c last j : ℕ), c ≤ j → j < total → j < c + fuel →
      last < j * 100 / total → (j * 100 / total) % 10 = 0 →
      j * 100 / total ∈ progressAux total fuel c last := by
  intro fuel
  induction fuel with
  | zero => intro c last j h1 _ h3 _ _; omega
  | succ fuel ih =>
      intro c last j h1 h2 h3 hlast hmod
      rw [progressAux]
      have hct : c ≠ total := by omega
      rw [if_neg hct]
      by_cases hemit : (c * 100 / total) % 10 = 0 ∧ c * 100 / total ≠ last
      · rw [if_pos hemit]
        by_cases heq : j * 100 / total = c * 100 / total
        · rw [heq]
          exact List.mem_cons_self _ _
        · have hcj : c < j := by
            rcases Nat.lt_or_ge c j with h | h
            · exact h
            · have hjc : j = c := by omega
              subst hjc
              exact absurd rfl heq
          have hle : c * 100 / total ≤ j * 100 / total :=
            percent_mono total (le_of_lt hcj)
          exact List.mem_cons_of_mem _
            (ih (c + 1) _ j (by omega) h2 (by omega)
              (lt_of_le_of_ne hle (fun hh => heq hh.symm)) hmod)
      · rw [if_neg hemit]
        have hcj : c < j := by
          by_cases hmod10 : (c * 100 / total) % 10 = 0
          · have hcl : c * 100 / total = last := by
              push_neg at hemit
              exact hemit hmod10
            rcases Nat.lt_or_ge c j with hl | hl
            · exact hl
            · have hjc : j = c := by omega
              subst hjc
              omega
          · rcases Nat.lt_or_ge c j with hl | hl
            · exact hl
            · have hjc : j = c := by omega
              subst hjc
              exact absurd hmod hmod10
        exact ih (c + 1) last j (by omega) h2 (by omega) hlast hmod

lemma chain_lt_of_mem {a m : ℕ} {l : List ℕ} (h : List.Chain (· < ·) a l)
    (hm : m ∈ l) : a < m := by
  induction l generalizing a with
  | nil => simp at hm
  | cons b t ih =>
      rcases List.chain_cons.mp h with ⟨hab, ht⟩
      rcases List.mem_cons.mp hm with rfl | hm2
      · exact hab
      · exact lt_trans hab (ih ht hm2)

/-- Claim C4 (amended): during result collection a notification is printed
exactly when the integer percentage `received * 100 / (width*height)` lands
exactly on a positive multiple of 10 it has not printed before: the printed
values are strictly increasing (each threshold at most once, never
repeated), every printed value is a positive multiple of 10 below 100, and
a value is printed iff it is exactly attained by the integer percentage at
some received count before the final one — multiples of 10 that the integer
percentage jumps over without landing on, and 100% (cut off by the break
before the check), are silently skipped. -/
theorem c4_progress_characterization (total : ℕ) :
    List.Chain (· < ·) 0 (progressEvents total) ∧
    (∀ m ∈ progressEvents total, m % 10 = 0 ∧ 0 < m ∧ m < 100) ∧
    (∀ m, m ∈ progressEvents total ↔
      (m % 10 = 0 ∧ 0 < m ∧ ∃ c, 1 ≤ c ∧ c < total ∧ c * 100 / total = m)) := by
  have hchain : List.Chain (· < ·) 0 (progressEvents total) :=
    progressAux_chain total total 1 0 (Nat.zero_le _)
  have hiff : ∀ m, m ∈ progressEvents total ↔
      (m % 10 = 0 ∧ 0 < m ∧ ∃ c, 1 ≤ c ∧ c < total ∧ c * 100 / total = m) := by
    intro m
    constructor
    · intro hm
      rcases Nat.eq_zero_or_pos total with h0 | hpos
      · subst h0
        simp [progressEvents, progressAux] at hm
      · obtain ⟨hmod, j, hj1, hj2, hj3⟩ :=
          progressAux_mem total total 1 0 m hpos hm
        exact ⟨hmod, chain_lt_of_mem hchain hm, j, hj1, hj2, hj3⟩
    · rintro ⟨hmod, hposm, c, hc1, hc2, hc3⟩
      have hlt : 0 < c * 100 / total := by rw [hc3]; exact hposm
      have hmod2 : (c * 100 / total) % 10 = 0 := by rw [hc3]; exact hmod
      have h := progressAux_complete total total 1 0 c hc1 hc2 (by omega) hlt hmod2
      rw [hc3] at h
      exact h
  refine ⟨hchain, ?_, hiff⟩
  intro m hm
  obtain ⟨hmod, hposm, c, _, hc2, hc3⟩ := (hiff m).mp hm
  refine ⟨hmod, hposm, ?_⟩
  have htot : 0 < total := by omega
  rw [← hc3]
  have : c * 100 < 100 * total := by omega
  exact (Nat.div_lt_iff_lt_mul htot).mpr this

/-- Claim C4 counterexample: on a 3-pixel image the percentage after the
first received result is already `1 * 100 / 3 = 33 ≥ 10`, so the 10% (and
20%, 30%) thresholds are crossed, yet no notification at all is emitted
(33 and 66 are not exact multiples of 10 and the loop breaks at the third
result before its progress check) — crossed thresholds are skipped,
contradicting "no crossed threshold is skipped". -/
theorem c4_counterexample : progressEvents 3 = [] ∧ 10 ≤ 1 * 100 / 3 := by
  constructor
  · rfl
  · decide

/-- Status of one pool worker thread (`Worker` of `src/threadpool.rs`):
blocked on the intake, executing a job, or exited from its loop. -/
inductive WStatus where
  | idle : WStatus
  | running : ℕ → WStatus
  | terminated : WStatus
  deriving DecidableEq

/-- State of the thread pool: the queued jobs in the shared intake (in FIFO
order, jobs named by ids), whether the producing side of the intake is
still open (`ThreadPool.tx` not yet dropped), the workers' statuses, and
the jobs that have finished executing. -/
structure PoolState where
  queue : List ℕ
  senderOpen : Bool
  workers : List WStatus
  executed : List ℕ

/-- Transition relation for the worker loops of `threadpool.rs` during
teardown (after `Drop` has taken `self.tx`, no further submissions exist):
* `take`: an idle worker's `rx.lock().unwrap().recv()` returns the next
  queued job (mpsc delivers queued messages even after the sender drops);
* `finish`: a running worker completes `job()` and loops back to idle;
* `observe`: `recv()` returns `Err` — which mpsc does exactly when the
  sender is dropped *and* the queue is empty — and the worker breaks out
  of its loop. -/
inductive PoolStep : PoolState → PoolState → Prop where
  | take (s : PoolState) (i j : ℕ) (rest : List ℕ)
      (hw : s.workers.get? i = some WStatus.idle) (hq : s.queue = j :: rest) :
      PoolStep s ⟨rest, s.senderOpen, s.workers.set i (WStatus.running j), s.executed⟩
  | finish (s : PoolState) (i j : ℕ)
      (hw : s.workers.get? i = some (WStatus.running j)) :
      PoolStep s ⟨s.queue, s.senderOpen, s.workers.set i WStatus.idle, j :: s.executed⟩
  | observe (s : PoolState) (i : ℕ)
      (hw : s.workers.get? i = some WStatus.idle) (hs : s.senderOpen = false)
      (hq : s.queue = []) :
      PoolStep s ⟨s.queue, s.senderOpen, s.workers.set i WStatus.terminated, s.executed⟩

/-- A state in which no worker can make any further move; `Drop`'s join
loop returns exactly when the system can move no more, which (shown below)
is when every worker has terminated. -/
def IsTerminal (s : PoolState) : Prop := ∀ t, ¬ PoolStep s t

lemma get?_set_self {α : Type} (l : List α) (i : ℕ) (a : α) (h : i < l.length) :
    (l.set i a).get? i = some a := by
  induction l generalizing i with
  | nil => simp at h
  | cons x xs ih =>
      cases i with
      | zero => rfl
      | succ n => exact ih n (by simpa using h)

lemma get?_set_ne {α : Type} (l : List α) (i j : ℕ) (a : α) (h : j ≠ i) :
    (l.set i a).get? j = l.get? j := by
  induction l generalizing i j with
  | nil => rfl
  | cons x xs ih =>
      cases i with
      | zero =>
          cases j with
          | zero => exact absurd rfl h
          | succ m => rfl
      | succ n =>
          cases j with
          | zero => rfl
          | succ m => exact ih n m (by omega)

lemma mem_of_get? {α : Type} (l : List α) (i : ℕ) (a : α) (h : l.get? i = some a) :
    a ∈ l := by
  induction l generalizing i with
  | nil => simp at h
  | cons x xs ih =>
      cases i with
      | zero =>
          simp at h
          simp [h]
      | succ n => exact List.mem_cons_of_mem _ (ih n h)

lemma lt_of_get? {α : Type} (l : List α) (i : ℕ) (a : α) (h : l.get? i = some a) :
    i < l.length := by
  induction l generalizing i with
  | nil => simp at h
  | cons x xs ih =>
      cases i with
      | zero => simp
      | succ n => simpa using ih n h

lemma get?_of_mem {α : Type} (l : List α) (a : α) (h : a ∈ l) :
    ∃ i, l.get? i = some a := by
  induction l with
  | nil => simp at h
  | cons x xs ih =>
      rcases List.mem_cons.mp h with rfl | h2
      · exact ⟨0, rfl⟩
      · obtain ⟨i, hi⟩ := ih h2
        exact ⟨i + 1, hi⟩

/-- Progress weight of a worker for the teardown termination measure. -/
def wweight : WStatus → ℕ
  | WStatus.idle => 1
  | WStatus.running _ => 2
  | WStatus.terminated => 0

/-- Termination measure: every pool step strictly decreases it. -/
def poolMeasure (s : PoolState) : ℕ :=
  3 * s.queue.length + (s.workers.map wweight).sum

lemma map_sum_set (l : List WStatus) (i : ℕ) (a b : WStatus)
    (h : l.get? i = some b) :
    ((l.set i a).map wweight).sum + wweight b = (l.map wweight).sum + wweight a := by
  induction l generalizing i with
  | nil => simp at h
  | cons x xs ih =>
      cases i with
      | zero =>
          simp at h
          subst h
          simp [List.set]
          omega
      | succ n =>
          simp only [List.set, List.map, List.sum_cons]
          have := ih n h
          omega

lemma poolStep_measure {s t : PoolState} (h : PoolStep s t) :
    poolMeasure t < poolMeasure s := by
  cases h with
  | take i j rest hw hq =>
      have hsum := map_sum_set s.workers i (WStatus.running j) WStatus.idle hw
      unfold poolMeasure
      simp only [wweight] at hsum ⊢
      rw [hq]
      simp only [List.length_cons]
      omega
  | finish i j hw =>
      have hsum := map_sum_set s.workers i WStatus.idle (WStatus.running j) hw
      unfold poolMeasure
      simp only [wweight] at hsum ⊢
      omega
  | observe i hw hs hq =>
      have hsum := map_sum_set s.workers i WStatus.terminated WStatus.idle hw
      unfold poolMeasure
      simp only [wweight] at hsum ⊢
      omega

lemma poolStep_senderOpen {s t : PoolState} (h : PoolStep s t) :
    t.senderOpen = s.senderOpen := by
  cases h <;> rfl

lemma rtg_senderOpen {s t : PoolState} (h : Relation.ReflTransGen PoolStep s t) :
    t.senderOpen = s.senderOpen := by
  induction h with
  | refl => rfl
  | tail _ hstep ih => rw [poolStep_senderOpen hstep, ih]

/-- In a terminal state with the intake closed, every worker has terminated
(otherwise it could still take, finish, or observe closure). -/
lemma terminal_all_terminated {s : PoolState} (hclosed : s.senderOpen = false)
    (hterm : IsTerminal s) : ∀ w ∈ s.workers, w = WStatus.terminated := by
  intro w hw
  obtain ⟨i, hi⟩ := get?_of_mem _ _ hw
  cases w with
  | idle =>
      exfalso
      cases hq : s.queue with
      | nil => exact hterm _ (PoolStep.observe s i hi hclosed hq)
      | cons j rest => exact hterm _ (PoolStep.take s i j rest hi hq)
  | running j =>
      exact absurd (PoolStep.finish s i j hi) (hterm _)
  | terminated => rfl

/-- Liveness invariant: while the queue is nonempty some worker is still
alive (this holds at teardown entry for any pool with ≥ 1 worker, since a
worker can only terminate after seeing the queue empty). -/
def PoolLive (s : PoolState) : Prop :=
  s.queue ≠ [] → ∃ w ∈ s.workers, w ≠ WStatus.terminated

lemma poolStep_live {s t : PoolState} (h : PoolStep s t) (_hl : PoolLive s) :
    PoolLive t := by
  cases h with
  | take i j rest hw hq =>
      intro _
      exact ⟨WStatus.running j,
        mem_of_get? _ _ _ (get?_set_self s.workers i _ (lt_of_get? _ _ _ hw)),
        by simp⟩
  | finish i j hw =>
      intro _
      exact ⟨WStatus.idle,
        mem_of_get? _ _ _ (get?_set_self s.workers i _ (lt_of_get? _ _ _ hw)),
        by simp⟩
  | observe i hw hs hq =>
      intro hne
      exact absurd hq hne

lemma rtg_live {s t : PoolState} (h : Relation.ReflTransGen PoolStep s t)
    (hl : PoolLive s) : PoolLive t := by
  induction h with
  | refl => exact hl
  | tail _ hstep ih => exact poolStep_live hstep ih

/-- A job is accounted for: still queued, being run by some worker, or done. -/
def JobPending (s : PoolState) (j : ℕ) : Prop :=
  j ∈ s.queue ∨ (∃ i, s.workers.get? i = some (WStatus.running j)) ∨ j ∈ s.executed

lemma poolStep_jobPending {s t : PoolState} (h : PoolStep s t) (j : ℕ)
    (hp : JobPending s j) : JobPending t j := by
  cases h with
  | take i j0 rest hw hq =>
      rcases hp with hq2 | ⟨i2, hi2⟩ | he
      · rw [hq] at hq2
        rcases List.mem_cons.mp hq2 with rfl | h2
        · exact Or.inr (Or.inl ⟨i, get?_set_self _ _ _ (lt_of_get? _ _ _ hw)⟩)
        · exact Or.inl h2
      · have hne : i2 ≠ i := by
          intro heq
          subst heq
          rw [hw] at hi2
          simp at hi2
        exact Or.inr (Or.inl ⟨i2, by rw [get?_set_ne _ _ _ _ hne]; exact hi2⟩)
      · exact Or.inr (Or.inr he)
  | finish i j0 hw =>
      rcases hp with hq2 | ⟨i2, hi2⟩ | he
      · exact Or.inl hq2
      · by_cases heq : i2 = i
        · subst heq
          rw [hw] at hi2
          simp at hi2
          exact Or.inr (Or.inr (by simp [hi2]))
        · exact Or.inr (Or.inl ⟨i2, by rw [get?_set_ne _ _ _ _ heq]; exact hi2⟩)
      · exact Or.inr (Or.inr (List.mem_cons_of_mem _ he))
  | observe i hw hs hq =>
      rcases hp with hq2 | ⟨i2, hi2⟩ | he
      · exact Or.inl hq2
      · have hne : i2 ≠ i := by
          intro heq
          subst heq
          rw [hw] at hi2
          simp at hi2
        exact Or.inr (Or.inl ⟨i2, by rw [get?_set_ne _ _ _ _ hne]; exact hi2⟩)
      · exact Or.inr (Or.inr he)

lemma rtg_jobPending {s t : PoolState} (h : Relation.ReflTransGen PoolStep s t)
    (j : ℕ) (hp : JobPending s j) : JobPending t j := by
  induction h with
  | refl => exact hp
  | tail _ hstep ih => exact poolStep_jobPending hstep j ih

/-- From any state some terminal state is reachable (the teardown join loop
cannot wait forever): the measure strictly decreases at every step. -/
lemma reach_terminal :
    ∀ (n : ℕ) (s : PoolState), poolMeasure s ≤ n →
      ∃ t, Relation.ReflTransGen PoolStep s t ∧ IsTerminal t := by
  intro n
  induction n with
  | zero =>
      intro s hs
      by_cases hterm : IsTerminal s
      · exact ⟨s, Relation.ReflTransGen.refl, hterm⟩
      · exfalso
        unfold IsTerminal at hterm
        push_neg at hterm
        obtain ⟨t, ht⟩ := hterm
        have := poolStep_measure ht
        omega
  | succ n ih =>
      intro s hs
      by_cases hterm : IsTerminal s
      · exact ⟨s, Relation.ReflTransGen.refl, hterm⟩
      · unfold IsTerminal at hterm
        push_neg at hterm
        obtain ⟨u, hu⟩ := hterm
        obtain ⟨t, ht1, ht2⟩ := ih u (by have := poolStep_measure hu; omega)
        exact ⟨t, Relation.ReflTransGen.head hu ht1, ht2⟩

/-- Claim C6: on pool teardown, once the intake's producing side is closed
(`Drop` drops `tx` first; the relation never reopens it), the join loop
terminates — a terminal state is reachable — and in every terminal state
every worker has observed the closure and terminated, the queue has been
fully drained, and every job that was queued or mid-execution at teardown
entry has been executed: no submitted job is abandoned mid-flight and no
worker outlives the pool. -/
theorem c6_pool_teardown (s : PoolState) (hclosed : s.senderOpen = false)
    (hlive : s.queue ≠ [] → ∃ w ∈ s.workers, w ≠ WStatus.terminated) :
    (∃ t, Relation.ReflTransGen PoolStep s t ∧ IsTerminal t) ∧
    (∀ t, Relation.ReflTransGen PoolStep s t → IsTerminal t →
      (∀ w ∈ t.workers, w = WStatus.terminated) ∧
      t.queue = [] ∧
      (∀ j, (j ∈ s.queue ∨ ∃ i, s.workers.get? i = some (WStatus.running j)) →
        j ∈ t.executed)) := by
  constructor
  · exact reach_terminal (poolMeasure s) s (le_refl _)
  · intro t hrt hterm
    have htso : t.senderOpen = false := by rw [rtg_senderOpen hrt, hclosed]
    have hallterm : ∀ w ∈ t.workers, w = WStatus.terminated :=
      terminal_all_terminated htso hterm
    have htlive : PoolLive t := rtg_live hrt hlive
    have hqempty : t.queue = [] := by
      by_contra hne
      obtain ⟨w, hw1, hw2⟩ := htlive hne
      exact hw2 (hallterm w hw1)
    refine ⟨hallterm, hqempty, ?_⟩
    intro j hj
    have hp : JobPending s j := by
      rcases hj with h | h
      · exact Or.inl h
      · exact Or.inr (Or.inl h)
    rcases rtg_jobPending hrt j hp with h | ⟨i, hi⟩ | h
    · rw [hqempty] at h
      simp at h
    · have := hallterm _ (mem_of_get? _ _ _ hi)
      simp at this
    · exact h

/-- Witness for C6: one idle worker, one queued job (id 5), sender closed. -/
theorem c6_pool_teardown_witness :
    PoolState.senderOpen ⟨[5], false, [WStatus.idle], []⟩ = false ∧
    ((∃ t, Relation.ReflTransGen PoolStep ⟨[5], false, [WStatus.idle], []⟩ t ∧
        IsTerminal t) ∧
     (∀ t, Relation.ReflTransGen PoolStep ⟨[5], false, [WStatus.idle], []⟩ t →
        IsTerminal t →
        (∀ w ∈ t.workers, w = WStatus.terminated) ∧
        t.queue = [] ∧
        (∀ j, (j ∈ PoolState.queue ⟨[5], false, [WStatus.idle], []⟩ ∨
            ∃ i, (PoolState.workers ⟨[5], false, [WStatus.idle], []⟩).get? i
              = some (WStatus.running j)) →
          j ∈ t.executed))) :=
  ⟨rfl, c6_pool_teardown ⟨[5], false, [WStatus.idle], []⟩ rfl
    (fun _ => ⟨WStatus.idle, by simp, by simp⟩)⟩

/-- `matrix.get_mut(x, y)` followed by `*el = v`, as `src/main.rs` uses it:
the update succeeds only in bounds; otherwise `get_mut` returns `None` and
the `.expect("Index out of bounds")` panic is modelled as `Except.error`.
(The loop indices are signed, hence the `ℤ` arguments.) -/
def gridSetChecked (g : Grid) (x y : ℤ) (v : ℝ) : Except String Grid :=
  if 0 ≤ x ∧ 0 ≤ y ∧ x < (g.rows : ℤ) ∧ y < (g.cols : ℤ) then
    Except.ok (g.set x.toNat y.toNat v)
  else
    Except.error "Index out of bounds"

/-- The offsets `(x, y)` with `-mid ≤ x, y ≤ mid` visited (in order) by the
kernel double loop of `src/main.rs`. -/
def mainOffsets (mid : ℕ) : List (ℤ × ℤ) :=
  (List.range (2 * mid + 1)).flatMap
    (fun a => (List.range (2 * mid + 1)).map
      (fun b => ((a : ℤ) - (mid : ℤ), (b : ℤ) - (mid : ℤ))))

/-- The kernel loop of `src/main.rs`'s `get_gaussian_matrix`: write
`gaussian(x, y, sigma)` through `get_mut(x + mid, y + mid)` for each
offset, aborting (panicking) at the first failed `get_mut`. -/
noncomputable def mainKernelLoop (sigma : ℝ) (mid : ℕ) :
    List (ℤ × ℤ) → Grid → Except String Grid
  | [], g => Except.ok g
  | c :: rest, g =>
      match gridSetChecked g (c.1 + mid) (c.2 + mid) (gaussian c.1 c.2 sigma) with
      | Except.error e => Except.error e
      | Except.ok g2 => mainKernelLoop sigma mid rest g2

/-- `fn get_gaussian_matrix(radius: u8, sigma: f64)` of `src/main.rs`:
panics (`Except.error`) when the radius is even ("Size must be an odd
number"); otherwise sets `mid = (radius - 1) / 2`, starts from the empty
grid `grid![]` (0 rows, 0 columns) and runs the kernel loop over all
offsets. -/
noncomputable def main_get_gaussian_matrix (radius : ℕ) (sigma : ℝ) :
    Except String Grid :=
  if radius % 2 = 0 then Except.error "Size must be an odd number"
  else mainKernelLoop sigma ((radius - 1) / 2)
    (mainOffsets ((radius - 1) / 2)) (Grid.new 0 0)

/-- `fn blur(radius, sigma, img_buf)` of `src/main.rs`: builds the kernel
first; if that panics the panic propagates before any pixel is written;
otherwise every pixel is overwritten with black `[0, 0, 0]`. -/
noncomputable def main_blur (radius : ℕ) (sigma : ℝ) (img : RgbImage) :
    Except String RgbImage :=
  match main_get_gaussian_matrix radius sigma with
  | Except.error e => Except.error e
  | Except.ok _ =>
      Except.ok { width := img.width, height := img.height,
                  pixel := fun _ _ => ⟨0, 0, 0⟩ }

lemma gridSetChecked_rows0 (g : Grid) (h : g.rows = 0) (x y : ℤ) (v : ℝ) :
    gridSetChecked g x y v = Except.error "Index out of bounds" := by
  unfold gridSetChecked
  rw [if_neg]
  rintro ⟨h1, _, h3, _⟩
  rw [h] at h3
  omega

lemma mainOffsets_ne_nil (m : ℕ) : mainOffsets m ≠ [] := by
  unfold mainOffsets
  rw [List.range_succ_eq_map]
  simp

lemma mainKernelLoop_rows0 (sigma : ℝ) (mid : ℕ) (l : List (ℤ × ℤ))
    (g : Grid) (hg : g.rows = 0) (hl : l ≠ []) :
    mainKernelLoop sigma mid l g = Except.error "Index out of bounds" := by
  cases l with
  | nil => exact absurd rfl hl
  | cons c rest =>
      unfold mainKernelLoop
      rw [gridSetChecked_rows0 g hg]

/-- Claim C10: the binary entry point's own blur routine panics for every
input before producing any output: an even radius fails the explicit
odd-size check, and an odd radius panics because the kernel loop calls
`get_mut` on the empty `grid![]`, whose every index lookup returns `None`. -/
theorem c10_main_blur_always_panics (radius : ℕ) (sigma : ℝ) (img : RgbImage) :
    main_blur radius sigma img = Except.error "Size must be an odd number" ∨
    main_blur radius sigma img = Except.error "Index out of bounds" := by
  unfold main_blur main_get_gaussian_matrix
  by_cases h : radius % 2 = 0
  · left
    rw [if_pos h]
  · right
    rw [if_neg h,
      mainKernelLoop_rows0 sigma _ _ _ rfl (mainOffsets_ne_nil _)]

/-- Witness for C4 (amended) at `total = 10`, threshold 20. -/
theorem c4_progress_characterization_witness :
    20 ∈ progressEvents 10 ↔
      (20 % 10 = 0 ∧ 0 < 20 ∧ ∃ c, 1 ≤ c ∧ c < 10 ∧ c * 100 / 10 = 20) :=
  (c4_progress_characterization 10).2.2 20
